import Mathlib

/-!
Shallow embedding of `scripts/match_symbols.py` (symbol matcher for binary
memory dumps) and verification of its specification claims.

Bytes are modelled as `Nat` list elements; Python integers (which are
arbitrary-precision and signed) are modelled as `Int`.  Python runtime
errors that the script can raise (`NameError` for an unbound variable,
`AttributeError` for attribute access on `None`, `IndexError` for
out-of-range indexing) are modelled with an explicit `Except` result.
-/

namespace WiiSym

/-- Python runtime errors that the modelled code can raise. -/
inductive PyError where
  | nameError : PyError
  | attributeError : PyError
  | indexError : PyError
  deriving Repr, DecidableEq

/-- Python sequence-index clamping for a slice bound: a negative index counts
from the end (and clamps at 0), a nonnegative index clamps at the length. -/
def pyIdx (n : Nat) (a : Int) : Nat :=
  if a < 0 then (Int.ofNat n + a).toNat else min a.toNat n

/-- Python slice read `l[i:j]` with full clamping semantics. -/
def pySliceGet (l : List Nat) (i j : Int) : List Nat :=
  let i0 := pyIdx l.length i
  let j0 := max i0 (pyIdx l.length j)
  (l.take j0).drop i0

/-- Python slice assignment `l[i:j] = t` with full clamping semantics: the
clamped slice is replaced by `t`, growing or shrinking the list as needed. -/
def pySliceAssign (l : List Nat) (i j : Int) (t : List Nat) : List Nat :=
  let i0 := pyIdx l.length i
  let j0 := max i0 (pyIdx l.length j)
  l.take i0 ++ t ++ l.drop j0

/-- The binary-search loop of CPython's `bisect.bisect_left`:
while `lo < hi`, probe `mid = (lo+hi)//2` and narrow the interval.  The loop
is driven by an explicit iteration budget `fuel` so that the recursion is
structural; every iteration shrinks `hi - lo` by at least one, so a budget of
the initial `hi - lo` always reaches the `lo = hi` exit. -/
def bisectLoop (a : List Int) (x : Int) (lo hi fuel : Nat) : Nat :=
  match fuel with
  | 0 => lo
  | fuel + 1 =>
    if lo < hi then
      let mid := (lo + hi) / 2
      if a.getD mid 0 < x then
        bisectLoop a x (mid + 1) hi fuel
      else
        bisectLoop a x lo mid fuel
    else lo

/-- Model of Python's `bisect.bisect_left(a, x)`: binary search over the whole
list (the script always calls it without explicit bounds). -/
def bisect_left (a : List Int) (x : Int) : Nat :=
  bisectLoop a x 0 a.length a.length

/-- A relocation entry as consumed by the script: only `r_offset` is read
(`rela["r_offset"]`); the remaining dictionary fields are abstracted into an
opaque `r_info` payload so that parallel-array claims are observable. -/
structure Rela where
  r_offset : Int
  r_info : Int
  deriving Repr, DecidableEq

/-- Structure `RelocationMap` from the script: holds the entry list `_items` and the
parallel offset list `_keys`. -/
structure RelocationMap where
  _items : List Rela
  _keys : List Int
  deriving Repr, DecidableEq

/-- Constructor `RelocationMap.__init__`: `self._items = [*iterable]` and
`self._keys = [rela["r_offset"] for rela in self._items]`.  Note that the
constructor copies the iterable in its given order; it performs no sorting. -/
def RelocationMap.init (iterable : List Rela) : RelocationMap :=
  { _items := iterable
    _keys := iterable.map (fun rela => rela.r_offset) }

/-- Method `RelocationMap.slice_range(base, size)` translated line by line:
empty on `size <= 0`; `i = bisect_left(keys, base)` rejected when `i == 0` or
`i >= len`; `j = bisect_left(keys, base + size)` rejected when `j == 0` or
`j >= len`; rejected when `i > j`; otherwise `items[i:j]`. -/
def RelocationMap.slice_range (m : RelocationMap) (base size : Int) : List Rela :=
  if size ≤ 0 then []
  else
    let i := bisect_left m._keys base
    if i = 0 ∨ i ≥ m._keys.length then []
    else
      let j := bisect_left m._keys (base + size)
      if j = 0 ∨ j ≥ m._keys.length then []
      else if i > j then []
      else (m._items.drop i).take (j - i)

/-- The command-line configuration consumed by the matching code
(`args.no_reloc`, `args.min_match`, `args.match`, `args.haystack_base`).
`args.match` is named `match_bytes` because `match` is a Lean keyword. -/
structure Args where
  no_reloc : Bool
  min_match : Int
  match_bytes : Int
  haystack_base : Int
  deriving Repr, DecidableEq

/-- A symbol-table entry as read by the script: `sym["st_name"]` (index into
the string table), `sym.entry["st_info"]["type"]`, `sym["st_value"]`,
`sym["st_size"]`. -/
structure Sym where
  st_name : Nat
  st_info_type : String
  st_value : Int
  st_size : Int
  deriving Repr, DecidableEq

/-- Mask construction from `match_symbol_reloc` (lines 146-150):
`mask = [0] * func_value_size` followed by, for each relocation of the range
query, `mask[rela_offset : rela_offset + 4] = [1, 1, 1, 1]` where
`rela_offset = rela["r_offset"] - func_value_ptr`.  Python's slice assignment
(not clipped write) is modelled exactly by `pySliceAssign`. -/
def buildMask (func_value_size func_value_ptr : Int) (relas : List Rela) : List Nat :=
  relas.foldl
    (fun mask rela =>
      let rela_offset := rela.r_offset - func_value_ptr
      pySliceAssign mask rela_offset (rela_offset + 4) [1, 1, 1, 1])
    (List.replicate func_value_size.toNat 0)

/-- One element of the compiled pattern: `some b` is the escaped literal byte
`\xNN` produced by `b"\\x%02x" % sym_value[i]`, `none` is the wildcard `b"."`. -/
abbrev PatElem := Option Nat

/-- Semantics of one pattern element of Python's `re` on bytes: an escaped
literal matches exactly its byte; `.` (without `re.DOTALL`) matches every
byte except the newline byte `0x0a`. -/
def matchByte : PatElem → Nat → Bool
  | some v, b => v == b
  | none, b => b != 10

/-- Pattern match test at one haystack position: the window must fit and every
pattern element must accept the byte under it. -/
def reMatchAt (pat : List PatElem) (haystack : List Nat) (s : Nat) : Bool :=
  decide (s + pat.length ≤ haystack.length) &&
    (List.range pat.length).all fun k => matchByte (pat.getD k none) (haystack.getD (s + k) 0)

/-- Left-to-right scan of `re.search`: try positions `s, s+1, ...` while fuel
remains, returning the first accepted position. -/
def reSearchFrom (pat : List PatElem) (haystack : List Nat) (s fuel : Nat) : Option Nat :=
  match fuel with
  | 0 => none
  | fuel + 1 =>
    if reMatchAt pat haystack s then some s
    else reSearchFrom pat haystack (s + 1) fuel

/-- Model of `re.search(regex, haystack)` for the restricted patterns the
script builds (a sequence of escaped literal bytes and `.` wildcards): the
leftmost matching start position, or `none`. -/
def reSearch (pat : List PatElem) (haystack : List Nat) : Option Nat :=
  reSearchFrom pat haystack 0 (haystack.length + 1)

/-- Regex construction loop shared by both matchers (lines 151-157):
`for i, mask_bit in enumerate(mask)` appending `b"\\x%02x" % sym_value[i]`
when the bit is 0 and `b"."` otherwise; `sym_value[i]` raises `IndexError`
when `i` is out of range.  `i` is the running index of `enumerate`. -/
def buildRegexAux (sym_value : List Nat) (mask : List Nat) (i : Nat) :
    Except PyError (List PatElem) :=
  match mask with
  | [] => .ok []
  | mask_bit :: rest =>
    if mask_bit == 0 then
      match sym_value[i]? with
      | some b =>
        match buildRegexAux sym_value rest (i + 1) with
        | .ok r => .ok (some b :: r)
        | .error e => .error e
      | none => .error .indexError
    else
      match buildRegexAux sym_value rest (i + 1) with
      | .ok r => .ok (none :: r)
      | .error e => .error e

/-- Regex construction starting at index 0, as in the script. -/
def buildRegex (sym_value : List Nat) (mask : List Nat) : Except PyError (List PatElem) :=
  buildRegexAux sym_value mask 0

/-- Per-symbol observable outcome: `silent` models a bare `return` with no
output line, the others model the `[!] Malformed`, `[+] Match` and
`[-] Unknown` lines. -/
inductive SymOutcome where
  | silent : SymOutcome
  | malformed : SymOutcome
  | found : Int → Int → SymOutcome
  | unknown : SymOutcome
  deriving Repr, DecidableEq

/-- Function `match_symbol_reloc(haystack, sym, text, strtab, relas_map)` translated
line by line.  The string table is abstracted as the resolution function
`strtab : Nat → String` standing for `strtab.get_string`. -/
def match_symbol_reloc (args : Args) (haystack : List Nat) (sym : Sym)
    (text : List Nat) (strtab : Nat → String) (relas_map : RelocationMap) :
    Except PyError SymOutcome :=
  let sym_name := strtab sym.st_name
  if sym_name.length = 0 then .ok .silent
  else if sym.st_info_type ≠ "STT_FUNC" then .ok .silent
  else
    let func_value_ptr := sym.st_value
    let func_value_size := sym.st_size
    if func_value_size < args.min_match then .ok .silent
    else
      let sym_value := pySliceGet text func_value_ptr (func_value_ptr + func_value_size)
      if (sym_value.length : Int) < func_value_size then .ok .malformed
      else
        let mask := buildMask func_value_size func_value_ptr
          (relas_map.slice_range func_value_ptr func_value_size)
        match buildRegex sym_value mask with
        | .error e => .error e
        | .ok regex =>
          match reSearch regex haystack with
          | some idx => .ok (.found (args.haystack_base + idx) func_value_size)
          | none => .ok .unknown

/-- Function `match_symbol_static(haystack, sym, text, strtab)` translated line by
line.  After the name, kind and size filters it computes `sym_value` and then
executes `for i, mask_bit in enumerate(mask)` — but `mask` is not bound
anywhere in that function or at module scope, so Python raises `NameError`
before any search is attempted. -/
def match_symbol_static (args : Args) (haystack : List Nat) (sym : Sym)
    (text : List Nat) (strtab : Nat → String) : Except PyError SymOutcome :=
  let sym_name := strtab sym.st_name
  if sym_name.length = 0 then .ok .silent
  else if sym.st_info_type = "STT_FUNC" then
    let func_value_ptr := sym.st_value
    let func_value_size := sym.st_size
    if func_value_size < args.min_match then .ok .silent
    else
      let _sym_value := pySliceGet text func_value_ptr (func_value_ptr + func_value_size)
      .error .nameError
  else .ok .silent

/-- A parsed object file as the script reads it: the optional `.symtab`
section (symbol list), the `.strtab` resolution function, the optional
`.rela.text` relocation list and the optional `.text` data. -/
structure ElfObj where
  symtab : Option (List Sym)
  strtab : Nat → String
  textrela : Option (List Rela)
  text_section : Option (List Nat)

/-- Observable result of `match_elf` on one object. -/
inductive ElfOutcome where
  | skippedNoText : ElfOutcome
  | results : List SymOutcome → ElfOutcome
  deriving Repr, DecidableEq

/-- Function `match_elf(haystack, elf)` translated line by line.  With relocations
enabled the symbol loop runs `symtab.iter_symbols()`, which raises
`AttributeError` when `.symtab` is absent (`symtab` is `None`).  With
`--no-reloc` the call `match_symbol_static(haystack, sym, text, strtab)`
references the unbound name `sym`, raising `NameError`. -/
def match_elf (args : Args) (haystack : List Nat) (elf : ElfObj) :
    Except PyError ElfOutcome :=
  match elf.text_section with
  | none => .ok .skippedNoText
  | some text =>
    if args.no_reloc = false then
      let relas_iter : List Rela :=
        match elf.textrela with
        | some rs => rs
        | none => []
      let relas_map := RelocationMap.init relas_iter
      match elf.symtab with
      | none => .error .attributeError
      | some syms =>
        match syms.mapM (fun sym => match_symbol_reloc args haystack sym text elf.strtab relas_map) with
        | .ok outs => .ok (.results outs)
        | .error e => .error e
    else
      .error .nameError

/-- Specification-side predicate (from the spec's words, for comparison with
the code): byte string `b` occurs in `hay` starting at position `t`. -/
def occursAt (b hay : List Nat) (t : Nat) : Prop :=
  t + b.length ≤ hay.length ∧ ∀ k < b.length, hay.getD (t + k) 0 = b.getD k 0

instance (b hay : List Nat) (t : Nat) : Decidable (occursAt b hay t) :=
  inferInstanceAs (Decidable (t + b.length ≤ hay.length ∧
    ∀ k < b.length, hay.getD (t + k) 0 = b.getD k 0))

/-- Specification-side predicate (from the spec's words, for comparison with
the code): the claimed wildcard semantics under which a mask-true position
matches any byte value whatsoever, and a mask-false position requires an
exact byte match; `t` is a claimed match position. -/
def specWildcardMatchAt (lit mask hay : List Nat) (t : Nat) : Prop :=
  t + lit.length ≤ hay.length ∧
    ∀ k < lit.length, mask.getD k 0 = 0 → hay.getD (t + k) 0 = lit.getD k 0

instance (lit mask hay : List Nat) (t : Nat) : Decidable (specWildcardMatchAt lit mask hay t) :=
  inferInstanceAs (Decidable (t + lit.length ≤ hay.length ∧
    ∀ k < lit.length, mask.getD k 0 = 0 → hay.getD (t + k) 0 = lit.getD k 0))

/-! ### Correctness of the bisect model on sorted key lists -/

/-- Position `k` of a sorted list holds a value below `x` exactly when `k` is
below the count of elements below `x`. -/
theorem sorted_lt_iff_lt_countP (a : List Int) (x : Int)
    (hs : a.Sorted (· ≤ ·)) (k : Nat) (hk : k < a.length) :
    a.getD k 0 < x ↔ k < a.countP (fun y => decide (y < x)) := by
  have hmono : ∀ i j (hi : i < a.length) (hj : j < a.length), i ≤ j → a[i] ≤ a[j] := by
    intro i j hi hj hij
    rcases Nat.lt_or_ge i j with h | h
    · exact List.pairwise_iff_getElem.mp hs i j hi hj h
    · have : i = j := by omega
      subst this; exact le_refl _
  have hgd : a.getD k 0 = a[k] := by
    simp [List.getD_eq_getElem?_getD, List.getElem?_eq_getElem hk]
  rw [hgd]
  constructor
  · intro hlt
    have hsplit := List.take_append_drop (k + 1) a
    have hcnt : a.countP (fun y => decide (y < x)) =
        (a.take (k + 1)).countP (fun y => decide (y < x)) +
        (a.drop (k + 1)).countP (fun y => decide (y < x)) := by
      conv_lhs => rw [← hsplit]
      rw [List.countP_append]
    have htake : (a.take (k + 1)).countP (fun y => decide (y < x)) =
        (a.take (k + 1)).length := by
      apply List.countP_eq_length.mpr
      intro b hb
      rcases List.mem_iff_getElem.mp hb with ⟨i, hi, hib⟩
      have hilen : i < a.length := lt_of_lt_of_le hi (by simp [List.length_take])
      have hik : i ≤ k := by simp [List.length_take] at hi; omega
      have : (a.take (k + 1))[i] = a[i] := List.getElem_take a
      rw [this] at hib
      have : a[i] ≤ a[k] := hmono i k hilen hk hik
      subst hib
      simpa using lt_of_le_of_lt this hlt
    have hlen : (a.take (k + 1)).length = k + 1 := by
      simp [List.length_take]; omega
    omega
  · intro hlt
    by_contra hge
    push_neg at hge
    have hsplit := List.take_append_drop k a
    have hcnt : a.countP (fun y => decide (y < x)) =
        (a.take k).countP (fun y => decide (y < x)) +
        (a.drop k).countP (fun y => decide (y < x)) := by
      conv_lhs => rw [← hsplit]
      rw [List.countP_append]
    have hdrop : (a.drop k).countP (fun y => decide (y < x)) = 0 := by
      apply List.countP_eq_zero.mpr
      intro b hb
      rcases List.mem_iff_getElem.mp hb with ⟨i, hi, hib⟩
      have hilen : k + i < a.length := by simp [List.length_drop] at hi; omega
      have : (a.drop k)[i] = a[k + i] := List.getElem_drop a
      rw [this] at hib
      have hka : a[k] ≤ a[k + i] := hmono k (k + i) hk hilen (by omega)
      subst hib
      simp only [decide_eq_true_eq]
      omega
    have htk : (a.take k).countP (fun y => decide (y < x)) ≤ k := by
      calc (a.take k).countP (fun y => decide (y < x)) ≤ (a.take k).length :=
            List.countP_le_length _
        _ ≤ k := by simp [List.length_take]
    omega

/-- The binary-search loop returns the count of elements below the probe on a
sorted list, whenever the count lies within the current search interval and
the iteration budget covers the interval width. -/
theorem bisectLoop_eq_countP (a : List Int) (x : Int) (hs : a.Sorted (· ≤ ·)) :
    ∀ (fuel lo hi : Nat), hi - lo ≤ fuel →
      lo ≤ a.countP (fun y => decide (y < x)) →
      a.countP (fun y => decide (y < x)) ≤ hi → hi ≤ a.length →
      bisectLoop a x lo hi fuel = a.countP (fun y => decide (y < x)) := by
  intro fuel
  induction fuel with
  | zero =>
    intro lo hi hd hlo hhi hlen
    simp only [bisectLoop]
    omega
  | succ fuel ih =>
    intro lo hi hd hlo hhi hlen
    simp only [bisectLoop]
    by_cases hlt : lo < hi
    · rw [if_pos hlt]
      show (if a.getD ((lo + hi) / 2) 0 < x then
              bisectLoop a x ((lo + hi) / 2 + 1) hi fuel
            else bisectLoop a x lo ((lo + hi) / 2) fuel) =
           a.countP (fun y => decide (y < x))
      have hmidlt : (lo + hi) / 2 < hi := by omega
      have hmidge : lo ≤ (lo + hi) / 2 := by omega
      have hmidlen : (lo + hi) / 2 < a.length := by omega
      by_cases hm : a.getD ((lo + hi) / 2) 0 < x
      · rw [if_pos hm]
        have hcnt := (sorted_lt_iff_lt_countP a x hs ((lo + hi) / 2) hmidlen).mp hm
        exact ih ((lo + hi) / 2 + 1) hi (by omega) (by omega) hhi hlen
      · rw [if_neg hm]
        have hcnt : ¬ ((lo + hi) / 2 < a.countP (fun y => decide (y < x))) := fun hc =>
          hm ((sorted_lt_iff_lt_countP a x hs ((lo + hi) / 2) hmidlen).mpr hc)
        exact ih lo ((lo + hi) / 2) (by omega) hlo (by omega) (by omega)
    · rw [if_neg hlt]
      omega

/-- On a sorted list, the modelled `bisect_left` is the count of elements
strictly below the probe value. -/
theorem bisect_left_eq_countP (a : List Int) (x : Int) (hs : a.Sorted (· ≤ ·)) :
    bisect_left a x = a.countP (fun y => decide (y < x)) :=
  bisectLoop_eq_countP a x hs a.length 0 a.length (by omega) (by omega)
    (List.countP_le_length _) (le_refl _)

/-- Monotone access into a sorted list. -/
theorem sorted_getElem_le (a : List Int) (hs : a.Sorted (· ≤ ·))
    (i j : Nat) (hi : i < a.length) (hj : j < a.length) (hij : i ≤ j) :
    a[i] ≤ a[j] := by
  rcases Nat.lt_or_ge i j with h | h
  · exact List.pairwise_iff_getElem.mp hs i j hi hj h
  · have : i = j := by omega
    subst this; exact le_refl _

/-- When the first key is already at or past the probe, `bisect_left` lands at
index 0 (on a sorted list). -/
theorem bisect_left_eq_zero (a : List Int) (x : Int) (hs : a.Sorted (· ≤ ·))
    (hn : 0 < a.length) (h0 : x ≤ a.getD 0 0) : bisect_left a x = 0 := by
  rw [bisect_left_eq_countP a x hs]
  apply List.countP_eq_zero.mpr
  intro b hb
  rcases List.mem_iff_getElem.mp hb with ⟨i, hi, hib⟩
  have h00 : a.getD 0 0 = a[0] := by
    simp [List.getD_eq_getElem?_getD, List.getElem?_eq_getElem hn]
  have hle : a[0] ≤ a[i] := sorted_getElem_le a hs 0 i hn hi (by omega)
  subst hib
  simp only [decide_eq_true_eq]
  omega

/-- When the last key is strictly below the probe, `bisect_left` lands at the
full length (on a sorted list). -/
theorem bisect_left_eq_length (a : List Int) (x : Int) (hs : a.Sorted (· ≤ ·))
    (hn : 0 < a.length) (hlast : a.getD (a.length - 1) 0 < x) :
    bisect_left a x = a.length := by
  rw [bisect_left_eq_countP a x hs]
  apply List.countP_eq_length.mpr
  intro b hb
  rcases List.mem_iff_getElem.mp hb with ⟨i, hi, hib⟩
  have hlastlt : a.length - 1 < a.length := by omega
  have hl : a.getD (a.length - 1) 0 = a[a.length - 1] := by
    simp [List.getD_eq_getElem?_getD, List.getElem?_eq_getElem hlastlt]
  have hle : a[i] ≤ a[a.length - 1] := sorted_getElem_le a hs i _ hi hlastlt (by omega)
  subst hib
  simp only [decide_eq_true_eq]
  omega

/-- C5: for every offset-sorted relocation table and query `[base, base+size)`,
`slice_range` exhibits the documented boundary gap — an entry at global index
0, or at the last global index, whose offset lies numerically within
`[base, base+size)` is excluded (indeed the whole result is empty); and for
all `base`, `size <= 0` returns empty. -/
theorem c5_slice_range_boundary_gap (m : RelocationMap) (base size : Int)
    (hs : m._keys.Sorted (· ≤ ·)) :
    ((0 < m._keys.length ∧ base ≤ m._keys.getD 0 0 ∧
        m._keys.getD 0 0 < base + size) → m.slice_range base size = []) ∧
    ((0 < m._keys.length ∧ base ≤ m._keys.getD (m._keys.length - 1) 0 ∧
        m._keys.getD (m._keys.length - 1) 0 < base + size) →
       m.slice_range base size = []) ∧
    (size ≤ 0 → m.slice_range base size = []) := by
  refine ⟨?_, ?_, ?_⟩
  · rintro ⟨hn, h0, -⟩
    have hi := bisect_left_eq_zero m._keys base hs hn h0
    simp only [RelocationMap.slice_range]
    split_ifs <;> first | rfl | (exfalso; omega)
  · rintro ⟨hn, -, h1⟩
    have hj := bisect_left_eq_length m._keys (base + size) hs hn h1
    simp only [RelocationMap.slice_range]
    split_ifs <;> first | rfl | (exfalso; omega)
  · intro hsz
    simp only [RelocationMap.slice_range]
    rw [if_pos hsz]

/-- On a well-formed map (parallel arrays), a key equals the offset of the
item at the same index. -/
theorem keys_getD_eq_item_offset (m : RelocationMap)
    (hpar : m._keys = m._items.map (fun rela => rela.r_offset))
    (idx : Nat) (hidx : idx < m._items.length) :
    m._keys.getD idx 0 = m._items[idx].r_offset := by
  rw [hpar]
  simp [List.getD_eq_getElem?_getD, List.getElem?_map, List.getElem?_eq_getElem hidx]

/-- Every relocation returned by `slice_range` on a well-formed sorted map has
its offset inside the queried half-open interval.  (The converse fails: that
is the boundary gap.) -/
theorem slice_range_offset_bounds (m : RelocationMap) (base size : Int)
    (hs : m._keys.Sorted (· ≤ ·))
    (hpar : m._keys = m._items.map (fun rela => rela.r_offset)) :
    ∀ r ∈ m.slice_range base size, base ≤ r.r_offset ∧ r.r_offset < base + size := by
  intro r hr
  simp only [RelocationMap.slice_range] at hr
  split_ifs at hr with h1 h2 h3 h4
  · simp at hr
  · simp at hr
  · simp at hr
  · simp at hr
  · have hlen : m._keys.length = m._items.length := by
      rw [hpar, List.length_map]
    have hib := bisect_left_eq_countP m._keys base hs
    have hjb := bisect_left_eq_countP m._keys (base + size) hs
    rcases List.mem_iff_getElem.mp hr with ⟨t, ht, hrt⟩
    have htlen : t < min (bisect_left m._keys (base + size) - bisect_left m._keys base)
        (m._items.length - bisect_left m._keys base) := by
      have := ht
      rw [List.length_take, List.length_drop] at this
      exact this
    have hidx : bisect_left m._keys base + t < m._items.length := by omega
    have hidxk : bisect_left m._keys base + t < m._keys.length := by omega
    simp only [List.getElem_take, List.getElem_drop] at hrt
    have hgd : m._keys.getD (bisect_left m._keys base + t) 0 = r.r_offset := by
      rw [keys_getD_eq_item_offset m hpar _ hidx, hrt]
    have hiff1 := sorted_lt_iff_lt_countP m._keys base hs
      (bisect_left m._keys base + t) hidxk
    have hiff2 := sorted_lt_iff_lt_countP m._keys (base + size) hs
      (bisect_left m._keys base + t) hidxk
    rw [hgd] at hiff1 hiff2
    constructor
    · by_contra hcon
      push_neg at hcon
      have := hiff1.mp hcon
      omega
    · apply hiff2.mpr
      omega

/-- Nat-level form of the mask slice assignment `mask[a : a+4] = [1,1,1,1]`
for a nonnegative in-range start index. -/
def natSetSlice (l : List Nat) (a : Nat) : List Nat :=
  l.take a ++ [1, 1, 1, 1] ++ l.drop (a + 4)

/-- The Python slice assignment performed by the mask loop agrees with its
Nat-level form when the start index is nonnegative and within the list. -/
theorem pySliceAssign_eq_natSetSlice (l : List Nat) (a : Int)
    (ha : 0 ≤ a) (hlen : a.toNat ≤ l.length) :
    pySliceAssign l a (a + 4) [1, 1, 1, 1] = natSetSlice l a.toNat := by
  unfold pySliceAssign natSetSlice pyIdx
  have h1 : ¬ a < 0 := by omega
  have h2 : ¬ a + 4 < 0 := by omega
  simp only [if_neg h1, if_neg h2]
  have h3 : (a + 4).toNat = a.toNat + 4 := by omega
  rw [h3]
  have h4 : min a.toNat l.length = a.toNat := by omega
  rw [h4]
  by_cases h5 : a.toNat + 4 ≤ l.length
  · have hmin : min (a.toNat + 4) l.length = a.toNat + 4 := by omega
    rw [hmin]
    have hmax : max a.toNat (a.toNat + 4) = a.toNat + 4 := by omega
    rw [hmax]
  · have hmin : min (a.toNat + 4) l.length = l.length := by omega
    rw [hmin]
    have hmax : max a.toNat l.length = l.length := by omega
    rw [hmax]
    rw [List.drop_eq_nil_of_le (le_refl l.length), List.drop_eq_nil_of_le (by omega)]

/-- Length of the Nat-level slice assignment: the list grows to `a + 4` when
the write overruns the tail (Python list slice assignment extends — it never
clips). -/
theorem length_natSetSlice (l : List Nat) (a : Nat) (ha : a ≤ l.length) :
    (natSetSlice l a).length = max l.length (a + 4) := by
  simp [natSetSlice, List.length_append, List.length_take, List.length_drop]
  omega

/-- Positions at or past `a + 4` are untouched by the slice assignment when
the write fits. -/
theorem natSetSlice_getD_high (l : List Nat) (a : Nat) (hfit : a + 4 ≤ l.length)
    (i : Nat) (hi : a + 4 ≤ i) :
    (natSetSlice l a).getD i 0 = l.getD i 0 := by
  unfold natSetSlice
  rw [List.getD_eq_getElem?_getD, List.getD_eq_getElem?_getD]
  rw [List.append_assoc]
  rw [List.getElem?_append_right (by simp [List.length_take]; omega)]
  rw [List.getElem?_append_right (by simp; omega)]
  rw [List.getElem?_drop]
  congr 2
  simp [List.length_take]
  omega

/-- Count of ones after one slice assignment into a stretch of zeros: exactly
four ones are added. -/
theorem count_natSetSlice (l : List Nat) (a : Nat) (hfit : a + 4 ≤ l.length)
    (hz : ∀ k, a ≤ k → k < a + 4 → l.getD k 0 = 0) :
    (natSetSlice l a).count 1 = l.count 1 + 4 := by
  have hmid : l = l.take a ++ ((l.drop a).take 4 ++ (l.drop a).drop 4) := by
    rw [List.take_append_drop, List.take_append_drop]
  have hdd : (l.drop a).drop 4 = l.drop (a + 4) := by
    rw [List.drop_drop]
  have hmidz : ((l.drop a).take 4).count 1 = 0 := by
    apply List.count_eq_zero.mpr
    intro hmem
    have hmem2 : (1 : Nat) ∈ l.drop a := List.mem_of_mem_take hmem
    rcases List.mem_iff_getElem.mp hmem with ⟨t, htl, hteq⟩
    have ht4 : t < 4 := by
      have := htl
      simp [List.length_take] at this
      omega
    have htl2 : t < (l.drop a).length := by
      have := htl
      simp [List.length_take, List.length_drop] at this ⊢
      omega
    rw [List.getElem_take] at hteq
    rw [List.getElem_drop] at hteq
    have hzk := hz (a + t) (by omega) (by omega)
    rw [List.getD_eq_getElem?_getD, List.getElem?_eq_getElem (by omega : a + t < l.length)]
      at hzk
    simp at hzk
    omega
  have hcl : l.count 1 = (l.take a).count 1 + (l.drop (a + 4)).count 1 := by
    conv_lhs => rw [hmid]
    rw [List.count_append, List.count_append, hmidz, hdd]
    omega
  unfold natSetSlice
  rw [List.count_append, List.count_append]
  simp [hcl]
  omega

/-- Length of the mask-building fold: each slice assignment grows the list to
`local + 4` whenever that exceeds the current length, so the final length is
the running maximum, never a clipped `size`. -/
theorem length_buildMask_fold (ptr : Int) (S : Nat) :
    ∀ (relas : List Rela) (mask : List Nat), S ≤ mask.length →
      (∀ r ∈ relas, ptr ≤ r.r_offset ∧ (r.r_offset - ptr).toNat ≤ S) →
      (relas.foldl (fun m rela =>
          pySliceAssign m (rela.r_offset - ptr) (rela.r_offset - ptr + 4) [1, 1, 1, 1])
        mask).length
        = relas.foldl (fun n rela => max n ((rela.r_offset - ptr).toNat + 4)) mask.length := by
  intro relas
  induction relas with
  | nil => intro mask _ _; rfl
  | cons r rest ih =>
    intro mask hS hb
    have hr := hb r (by simp)
    have hrest : ∀ x ∈ rest, ptr ≤ x.r_offset ∧ (x.r_offset - ptr).toNat ≤ S := by
      intro x hx; exact hb x (by simp [hx])
    simp only [List.foldl_cons]
    rw [pySliceAssign_eq_natSetSlice mask (r.r_offset - ptr) (by omega) (by omega)]
    rw [ih (natSetSlice mask (r.r_offset - ptr).toNat)
      (by rw [length_natSetSlice mask _ (by omega)]; omega) hrest]
    rw [length_natSetSlice mask _ (by omega)]

/-- Along a chain whose step relation is `x + 4 ≤ y`, every later element is
at least the head plus four. -/
theorem chain_add_four_le_of_mem (y : Nat) (ys : List Nat)
    (hch : List.Chain (fun a b => a + 4 ≤ b) y ys) :
    ∀ z ∈ ys, y + 4 ≤ z := by
  induction ys generalizing y with
  | nil => intro z hz; simp at hz
  | cons w ws ih =>
    intro z hz
    rcases List.chain_cons.mp hch with ⟨hyw, hws⟩
    rcases List.mem_cons.mp hz with rfl | hz2
    · exact hyw
    · have := ih w hws z hz2
      omega

/-- Count of ones in the mask-building fold when the written windows are
in bounds, pairwise disjoint and increasing: each relocation contributes
exactly four ones. -/
theorem count_buildMask_fold (ptr : Int) :
    ∀ (relas : List Rela) (mask : List Nat) (bound : Nat),
      (∀ i, bound ≤ i → mask.getD i 0 = 0) →
      (∀ r ∈ relas, ptr ≤ r.r_offset ∧ bound ≤ (r.r_offset - ptr).toNat ∧
        (r.r_offset - ptr).toNat + 4 ≤ mask.length) →
      List.Chain' (fun x y => x + 4 ≤ y)
        (relas.map fun r => (r.r_offset - ptr).toNat) →
      (relas.foldl (fun m rela =>
          pySliceAssign m (rela.r_offset - ptr) (rela.r_offset - ptr + 4) [1, 1, 1, 1])
        mask).count 1
        = mask.count 1 + 4 * relas.length := by
  intro relas
  induction relas with
  | nil => intro mask bound _ _ _; simp
  | cons r rest ih =>
    intro mask bound hz hb hchain
    have hr := hb r (by simp)
    have ha0 : (0 : Int) ≤ r.r_offset - ptr := by omega
    have hafit : (r.r_offset - ptr).toNat + 4 ≤ mask.length := hr.2.2
    simp only [List.foldl_cons]
    rw [pySliceAssign_eq_natSetSlice mask (r.r_offset - ptr) ha0 (by omega)]
    have hlen' : (natSetSlice mask (r.r_offset - ptr).toNat).length = mask.length := by
      rw [length_natSetSlice mask _ (by omega)]; omega
    have hz' : ∀ i, (r.r_offset - ptr).toNat + 4 ≤ i →
        (natSetSlice mask (r.r_offset - ptr).toNat).getD i 0 = 0 := by
      intro i hi
      rw [natSetSlice_getD_high mask _ hafit i hi]
      exact hz i (by omega)
    have hchain' : List.Chain' (fun x y => x + 4 ≤ y)
        (rest.map fun x => (x.r_offset - ptr).toNat) := hchain.tail
    have hchmain : List.Chain (fun a b => a + 4 ≤ b) ((r.r_offset - ptr).toNat)
        (rest.map fun z => (z.r_offset - ptr).toNat) := by
      simpa [List.map_cons] using hchain
    have hb' : ∀ x ∈ rest, ptr ≤ x.r_offset ∧
        (r.r_offset - ptr).toNat + 4 ≤ (x.r_offset - ptr).toNat ∧
        (x.r_offset - ptr).toNat + 4 ≤ (natSetSlice mask (r.r_offset - ptr).toNat).length := by
      intro x hx
      have hxb := hb x (by simp [hx])
      refine ⟨hxb.1, ?_, by rw [hlen']; exact hxb.2.2⟩
      apply chain_add_four_le_of_mem _ _ hchmain
      simp only [List.mem_map]
      exact ⟨x, hx, rfl⟩
    rw [ih (natSetSlice mask (r.r_offset - ptr).toNat) ((r.r_offset - ptr).toNat + 4)
      hz' hb' hchain']
    rw [count_natSetSlice mask _ hafit (fun k hk1 hk2 => hz k (by omega))]
    simp [List.length_cons]
    ring

/-- A running maximum stays at its seed when every contribution is bounded by
the seed. -/
theorem foldl_max_const (f : Rela → Nat) :
    ∀ (l : List Rela) (S : Nat), (∀ x ∈ l, f x ≤ S) →
      l.foldl (fun n x => max n (f x)) S = S := by
  intro l
  induction l with
  | nil => intro S _; rfl
  | cons x xs ih =>
    intro S hb
    simp only [List.foldl_cons]
    have hx : f x ≤ S := hb x (by simp)
    have hmax : max S (f x) = S := by omega
    rw [hmax]
    exact ih S (fun z hz => hb z (by simp [hz]))

/-- Every position of the zero-initialised mask reads zero. -/
theorem replicate_zero_getD (n i : Nat) : (List.replicate n (0 : Nat)).getD i 0 = 0 := by
  rw [List.getD_eq_getElem?_getD, List.getElem?_replicate]
  split <;> rfl

/-- C1 refuted at a concrete input: for a symbol at offset 8 of declared size
24 and a relocation at offset 30 (inside the range, returned by the range
query, with `local = 22` and `local + 4 = 26 > 24`), the built mask has
length 26, not 24, and position 24 (an index `>= S`) is set — Python's slice
assignment extends the list instead of clipping at the mask length. -/
theorem c1_mask_clipping_counterexample :
    (buildMask 24 8 ((RelocationMap.init
        [⟨0, 9⟩, ⟨30, 9⟩, ⟨1000, 9⟩]).slice_range 8 24)).length = 26 ∧
    (26 : Nat) ≠ 24 ∧
    (buildMask 24 8 ((RelocationMap.init
        [⟨0, 9⟩, ⟨30, 9⟩, ⟨1000, 9⟩]).slice_range 8 24)).getD 24 0 = 1 := by
  decide

/-- C1 amended: the mask loop marks `[local, local+4)` WITHOUT clipping — the
slice assignment grows the mask, so its final length is the running maximum
of `size` and `local + 4` over the returned relocations; the length equals
the declared size exactly (and hence no position at index `>= S` exists)
whenever every returned relocation satisfies `local + 4 <= S`. -/
theorem c1_mask_length (m : RelocationMap) (base size : Int)
    (hs : m._keys.Sorted (· ≤ ·))
    (hpar : m._keys = m._items.map (fun rela => rela.r_offset)) :
    (buildMask size base (m.slice_range base size)).length
      = (m.slice_range base size).foldl
          (fun n rela => max n ((rela.r_offset - base).toNat + 4)) size.toNat
    ∧ ((∀ r ∈ m.slice_range base size, (r.r_offset - base).toNat + 4 ≤ size.toNat) →
        (buildMask size base (m.slice_range base size)).length = size.toNat) := by
  have hbounds := slice_range_offset_bounds m base size hs hpar
  have hb : ∀ r ∈ m.slice_range base size,
      base ≤ r.r_offset ∧ (r.r_offset - base).toNat ≤ size.toNat := by
    intro r hr
    have := hbounds r hr
    constructor
    · omega
    · omega
  have hmain : (buildMask size base (m.slice_range base size)).length
      = (m.slice_range base size).foldl
          (fun n rela => max n ((rela.r_offset - base).toNat + 4)) size.toNat := by
    unfold buildMask
    rw [length_buildMask_fold base size.toNat (m.slice_range base size)
      (List.replicate size.toNat 0) (by simp) hb]
    simp
  refine ⟨hmain, ?_⟩
  intro hfit
  rw [hmain]
  exact foldl_max_const (fun rela => (rela.r_offset - base).toNat + 4)
    (m.slice_range base size) size.toNat hfit

/-- Witness for C1 (amended) at the same concrete relocation map as the
counterexample: the length formula evaluates to 26 there. -/
theorem c1_mask_length_witness :
    (buildMask 24 8 ((RelocationMap.init
        [⟨0, 9⟩, ⟨30, 9⟩, ⟨1000, 9⟩]).slice_range 8 24)).length
      = ((RelocationMap.init [⟨0, 9⟩, ⟨30, 9⟩, ⟨1000, 9⟩]).slice_range 8 24).foldl
          (fun n rela => max n ((rela.r_offset - 8).toNat + 4)) (24 : Int).toNat :=
  (c1_mask_length (RelocationMap.init [⟨0, 9⟩, ⟨30, 9⟩, ⟨1000, 9⟩]) 8 24
    (by decide) rfl).1

/-- C6 refuted at a concrete input: the single relocation at offset 10
overlaps the queried range `[0, 24)` (the filter below counts exactly one
overlapping entry of R), but the range query's boundary gap drops it, so the
mask has 0 positions set, not `4 * 1`. -/
theorem c6_popcount_counterexample :
    (buildMask 24 0 ((RelocationMap.init [⟨10, 9⟩]).slice_range 0 24)).count 1 = 0 ∧
    (([⟨10, 9⟩] : List Rela).filter
        (fun r => decide (0 ≤ r.r_offset) && decide (r.r_offset < 0 + 24))).length = 1 ∧
    (0 : Nat) ≠ 4 * 1 := by
  decide

/-- C6 amended: the number of mask positions set true equals `4` times the
number of relocations RETURNED BY the index's range query (which can omit
entries at the table's first and last global index), provided the returned
windows `[local, local+4)` are pairwise disjoint (offsets at least 4 apart)
and stay within the declared size; without those provisos overlapping or
tail-overrunning windows change the count (no clipping at `S-1` occurs). -/
theorem c6_mask_popcount (m : RelocationMap) (base size : Int)
    (hs : m._keys.Sorted (· ≤ ·))
    (hpar : m._keys = m._items.map (fun rela => rela.r_offset))
    (hfit : ∀ r ∈ m.slice_range base size, (r.r_offset - base).toNat + 4 ≤ size.toNat)
    (hchain : List.Chain' (fun x y => x + 4 ≤ y)
      ((m.slice_range base size).map fun r => (r.r_offset - base).toNat)) :
    (buildMask size base (m.slice_range base size)).count 1
      = 4 * (m.slice_range base size).length := by
  have hbounds := slice_range_offset_bounds m base size hs hpar
  unfold buildMask
  rw [count_buildMask_fold base (m.slice_range base size) (List.replicate size.toNat 0) 0
    (fun i _ => replicate_zero_getD size.toNat i)
    (fun r hr => ⟨(hbounds r hr).1, by omega, by
      rw [List.length_replicate]; exact hfit r hr⟩)
    hchain]
  simp [List.count_replicate]

/-- Witness for C6 (amended) at a concrete four-entry table: the query
`[8, 32)` returns the two middle relocations (offsets 12 and 16, locals 4 and
8 — disjoint, in bounds), and the mask popcount is `4 * 2`. -/
theorem c6_mask_popcount_witness :
    (buildMask 24 8 ((RelocationMap.init
        [⟨0, 9⟩, ⟨12, 9⟩, ⟨16, 9⟩, ⟨100, 9⟩]).slice_range 8 24)).count 1
      = 4 * ((RelocationMap.init
        [⟨0, 9⟩, ⟨12, 9⟩, ⟨16, 9⟩, ⟨100, 9⟩]).slice_range 8 24).length := by
  have hsl : (RelocationMap.init
      [⟨0, 9⟩, ⟨12, 9⟩, ⟨16, 9⟩, ⟨100, 9⟩]).slice_range 8 24 = [⟨12, 9⟩, ⟨16, 9⟩] := by
    decide
  exact c6_mask_popcount (RelocationMap.init [⟨0, 9⟩, ⟨12, 9⟩, ⟨16, 9⟩, ⟨100, 9⟩]) 8 24
    (by decide) rfl (by decide)
    (by rw [hsl]; simp [List.chain'_cons, List.chain'_singleton])

/-- Length of a Python slice read with nonnegative ordered bounds. -/
theorem length_pySliceGet (l : List Nat) (i j : Int) (hi : 0 ≤ i) (hij : i ≤ j) :
    (pySliceGet l i j).length = min j.toNat l.length - min i.toNat l.length := by
  unfold pySliceGet pyIdx
  rw [if_neg (by omega), if_neg (by omega)]
  simp only [List.length_drop, List.length_take]
  omega

/-- C4 refuted at a concrete input: constructed from entries with offsets
`[5, 3]`, the stored key array is `[5, 3]` — input order, not sorted
ascending.  The constructor performs no sort. -/
theorem c4_init_no_sort_counterexample :
    (RelocationMap.init [⟨5, 1⟩, ⟨3, 2⟩])._keys = [5, 3] ∧
    ¬ (RelocationMap.init [⟨5, 1⟩, ⟨3, 2⟩])._keys.Sorted (· ≤ ·) := by
  constructor
  · rfl
  · decide

/-- C4 amended: the constructor stores the entries in their given input order
(no sorting — trivially stable, duplicates preserved) with the offsets in a
parallel key array; the stored key array is sorted ascending if and only if
the input offsets were already sorted. -/
theorem c4_init_preserves_order (iterable : List Rela) :
    (RelocationMap.init iterable)._items = iterable ∧
    (RelocationMap.init iterable)._keys = iterable.map (fun rela => rela.r_offset) ∧
    ((RelocationMap.init iterable)._keys.Sorted (· ≤ ·) ↔
      (iterable.map (fun rela => rela.r_offset)).Sorted (· ≤ ·)) :=
  ⟨rfl, rfl, Iff.rfl⟩

/-- C8: a symbol with an empty (resolved) name, or whose kind is not
`STT_FUNC`, or whose declared size is below the configured minimum, produces
no output line at all — `match_symbol_reloc` returns silently, for every
configuration. -/
theorem c8_filter_silent (args : Args) (haystack : List Nat) (sym : Sym)
    (text : List Nat) (strtab : Nat → String) (relas_map : RelocationMap)
    (h : (strtab sym.st_name).length = 0 ∨ sym.st_info_type ≠ "STT_FUNC" ∨
      sym.st_size < args.min_match) :
    match_symbol_reloc args haystack sym text strtab relas_map = .ok .silent := by
  simp only [match_symbol_reloc]
  split_ifs with h1 h2 h3 h4 <;>
    first
      | rfl
      | (rcases h with h | h | h <;> simp_all)

/-- Witness for C8: a named function symbol of size 8 under the default
minimum 24 yields no output. -/
theorem c8_filter_silent_witness :
    match_symbol_reloc ⟨false, 24, 32, 0x80000000⟩ [] ⟨0, "STT_FUNC", 0, 8⟩ []
      (fun _ => "f") (RelocationMap.init []) = .ok .silent :=
  c8_filter_silent ⟨false, 24, 32, 0x80000000⟩ [] ⟨0, "STT_FUNC", 0, 8⟩ []
    (fun _ => "f") (RelocationMap.init []) (Or.inr (Or.inr (by decide)))

/-- C7: a named function symbol passing the minimum-size filter whose
declared size exceeds the bytes available in its section (`max 0 (len - ptr)`
bytes) yields the Malformed verdict — never Found, NotFound, or silence. -/
theorem c7_short_extract_malformed (args : Args) (haystack : List Nat) (sym : Sym)
    (text : List Nat) (strtab : Nat → String) (relas_map : RelocationMap)
    (hname : ¬ (strtab sym.st_name).length = 0)
    (hfunc : sym.st_info_type = "STT_FUNC")
    (hmin : ¬ sym.st_size < args.min_match)
    (hptr : 0 ≤ sym.st_value)
    (havail : max 0 ((text.length : Int) - sym.st_value) < sym.st_size) :
    match_symbol_reloc args haystack sym text strtab relas_map = .ok .malformed := by
  have hsz : (0 : Int) < sym.st_size := by omega
  have hlen := length_pySliceGet text sym.st_value (sym.st_value + sym.st_size)
    hptr (by omega)
  simp only [match_symbol_reloc]
  rw [if_neg hname, if_neg (by simp [hfunc]), if_neg hmin,
    if_pos (by rw [hlen]; omega)]

/-- Witness for C7: a function symbol declaring 40 bytes over a 10-byte
section is reported Malformed. -/
theorem c7_short_extract_malformed_witness :
    match_symbol_reloc ⟨false, 24, 32, 0x80000000⟩ [] ⟨0, "STT_FUNC", 0, 40⟩
      (List.replicate 10 7) (fun _ => "f") (RelocationMap.init []) = .ok .malformed :=
  c7_short_extract_malformed ⟨false, 24, 32, 0x80000000⟩ [] ⟨0, "STT_FUNC", 0, 40⟩
    (List.replicate 10 7) (fun _ => "f") (RelocationMap.init [])
    (by decide) rfl (by decide) (by decide) (by decide)

/-- C10: an object that parses, has a `.text` section, but lacks a `.symtab`
section is not skipped: the symbol loop calls `iter_symbols()` on `None`,
raising an uncaught `AttributeError` that aborts the run (the script's
try/except only guards ELF parsing). -/
theorem c10_missing_symtab_aborts (args : Args) (haystack : List Nat) (elf : ElfObj)
    (t : List Nat) (hnr : args.no_reloc = false)
    (htext : elf.text_section = some t) (hsym : elf.symtab = none) :
    match_elf args haystack elf = .error .attributeError := by
  simp [match_elf, htext, hnr, hsym]

/-- Witness for C10 at a concrete object with a text section and no symbol
table. -/
theorem c10_missing_symtab_aborts_witness :
    match_elf ⟨false, 24, 32, 0x80000000⟩ [] ⟨none, fun _ => "f", none, some []⟩
      = .error .attributeError :=
  c10_missing_symtab_aborts ⟨false, 24, 32, 0x80000000⟩ []
    ⟨none, fun _ => "f", none, some []⟩ [] rfl rfl rfl

/-- C2 refuted by the code: in no-reloc mode nothing is ever matched — the
call `match_symbol_static(haystack, sym, text, strtab)` in `match_elf` uses
the unbound name `sym` (there is no symbol loop in that branch), and
`match_symbol_static` itself iterates `enumerate(mask)` where `mask` is
unbound, so any eligible function symbol raises `NameError` before any
search; no truncated substring search happens and nothing is reported found. -/
theorem c2_no_reloc_crashes (args : Args) (haystack : List Nat) (elf : ElfObj)
    (t : List Nat) (hnr : args.no_reloc = true) (htext : elf.text_section = some t)
    (sym : Sym) (text : List Nat) (strtab : Nat → String)
    (hname : ¬ (strtab sym.st_name).length = 0)
    (hfunc : sym.st_info_type = "STT_FUNC")
    (hmin : ¬ sym.st_size < args.min_match) :
    match_elf args haystack elf = .error .nameError ∧
    match_symbol_static args haystack sym text strtab = .error .nameError := by
  constructor
  · simp [match_elf, htext, hnr]
  · simp only [match_symbol_static]
    rw [if_neg hname, if_pos hfunc, if_neg hmin]

/-- Witness for C2's failing input: `--no-reloc` with `--match=16`, an object
with a text section, and an eligible 40-byte function symbol — both the
object-level branch and the per-symbol matcher raise `NameError`. -/
theorem c2_no_reloc_crashes_witness :
    match_elf ⟨true, 24, 16, 0x80000000⟩ [] ⟨some [], fun _ => "f", none, some []⟩
        = .error .nameError ∧
    match_symbol_static ⟨true, 24, 16, 0x80000000⟩ [] ⟨0, "STT_FUNC", 0, 40⟩
        (List.replicate 40 7) (fun _ => "f") = .error .nameError :=
  c2_no_reloc_crashes ⟨true, 24, 16, 0x80000000⟩ []
    ⟨some [], fun _ => "f", none, some []⟩ [] rfl rfl
    ⟨0, "STT_FUNC", 0, 40⟩ (List.replicate 40 7) (fun _ => "f")
    (by decide) rfl (by decide)

/-- Regex construction succeeds and produces the positionwise pattern
(literal at mask 0, wildcard otherwise) whenever the indexed window stays
inside `sym_value`. -/
theorem buildRegexAux_ok (sym_value : List Nat) :
    ∀ (mask : List Nat) (i : Nat), i + mask.length ≤ sym_value.length →
      buildRegexAux sym_value mask i =
        .ok (List.zipWith (fun bit b => if bit == 0 then some b else none)
          mask (sym_value.drop i)) := by
  intro mask
  induction mask with
  | nil => intro i _; rfl
  | cons bit rest ih =>
    intro i hle
    have hi : i < sym_value.length := by
      have := hle
      simp [List.length_cons] at this
      omega
    have hdrop : sym_value.drop i = sym_value[i] :: sym_value.drop (i + 1) :=
      List.drop_eq_getElem_cons hi
    have hrec := ih (i + 1) (by simp at hle ⊢; omega)
    simp only [buildRegexAux]
    by_cases hbit : bit == 0
    · rw [if_pos hbit, List.getElem?_eq_getElem hi, hrec, hdrop]
      simp only [List.zipWith_cons_cons]
      rw [if_pos hbit]
    · rw [if_neg hbit, hrec, hdrop]
      simp only [List.zipWith_cons_cons]
      rw [if_neg hbit]

/-- Regex construction from index 0 for a mask no longer than the bytes. -/
theorem buildRegex_ok (sym_value mask : List Nat) (h : mask.length ≤ sym_value.length) :
    buildRegex sym_value mask =
      .ok (List.zipWith (fun bit b => if bit == 0 then some b else none) mask sym_value) := by
  have := buildRegexAux_ok sym_value mask 0 (by omega)
  simpa [buildRegex] using this

/-- An all-zero mask of the bytes' length compiles to the all-literal
pattern. -/
theorem zipWith_replicate_zero (B : List Nat) :
    List.zipWith (fun bit b => if bit == 0 then some b else none)
      (List.replicate B.length 0) B = B.map some := by
  induction B with
  | nil => rfl
  | cons b bs ih =>
    simp only [List.length_cons, List.replicate_succ, List.zipWith_cons_cons, List.map_cons]
    rw [ih]
    rfl

/-- Unfolded meaning of the positionwise pattern test. -/
theorem reMatchAt_iff (pat : List PatElem) (hay : List Nat) (s : Nat) :
    reMatchAt pat hay s = true ↔
      (s + pat.length ≤ hay.length ∧
        ∀ k < pat.length, matchByte (pat.getD k none) (hay.getD (s + k) 0) = true) := by
  simp [reMatchAt, List.all_eq_true, List.mem_range]

/-- Completeness of the scan: the first accepting position within the fuel
window is returned. -/
theorem reSearchFrom_eq_some (pat : List PatElem) (hay : List Nat) :
    ∀ (fuel s r : Nat), s ≤ r → r < s + fuel → reMatchAt pat hay r = true →
      (∀ t, s ≤ t → t < r → reMatchAt pat hay t = false) →
      reSearchFrom pat hay s fuel = some r := by
  intro fuel
  induction fuel with
  | zero => intro s r h1 h2 _ _; omega
  | succ fuel ih =>
    intro s r h1 h2 hr hbefore
    simp only [reSearchFrom]
    by_cases hs : reMatchAt pat hay s = true
    · rw [if_pos hs]
      rcases Nat.lt_or_ge s r with hlt | hge
      · rw [hbefore s (le_refl s) hlt] at hs
        exact absurd hs (by simp)
      · have : s = r := by omega
        rw [this]
    · rw [if_neg hs]
      have hsr : s ≠ r := fun he => hs (he ▸ hr)
      exact ih (s + 1) r (by omega) (by omega) hr
        (fun t ht1 ht2 => hbefore t (by omega) ht2)

/-- Soundness of the scan: a returned position accepts and every earlier
position from the scan start rejects. -/
theorem reSearchFrom_some_sound (pat : List PatElem) (hay : List Nat) :
    ∀ (fuel s r : Nat), reSearchFrom pat hay s fuel = some r →
      reMatchAt pat hay r = true ∧ s ≤ r ∧
        ∀ t, s ≤ t → t < r → reMatchAt pat hay t = false := by
  intro fuel
  induction fuel with
  | zero => intro s r h; simp [reSearchFrom] at h
  | succ fuel ih =>
    intro s r h
    simp only [reSearchFrom] at h
    by_cases hs : reMatchAt pat hay s = true
    · rw [if_pos hs] at h
      have : s = r := by simpa using h
      subst this
      exact ⟨hs, le_refl s, fun t ht1 ht2 => by omega⟩
    · rw [if_neg hs] at h
      rcases ih (s + 1) r h with ⟨hr, hsr, hbefore⟩
      refine ⟨hr, by omega, fun t ht1 ht2 => ?_⟩
      rcases Nat.lt_or_ge t (s + 1) with hlow | hhigh
      · have : t = s := by omega
        subst this
        simpa using hs
      · exact hbefore t hhigh ht2

/-- The modelled `re.search` returns exactly the leftmost accepting
position. -/
theorem reSearch_eq_some_iff (pat : List PatElem) (hay : List Nat) (r : Nat) :
    reSearch pat hay = some r ↔
      (reMatchAt pat hay r = true ∧ ∀ t < r, reMatchAt pat hay t = false) := by
  constructor
  · intro h
    rcases reSearchFrom_some_sound pat hay (hay.length + 1) 0 r h with ⟨h1, -, h3⟩
    exact ⟨h1, fun t ht => h3 t (by omega) ht⟩
  · rintro ⟨h1, h2⟩
    have hrlen : r + pat.length ≤ hay.length := by
      rcases (reMatchAt_iff pat hay r).mp h1 with ⟨h, -⟩
      exact h
    exact reSearchFrom_eq_some pat hay (hay.length + 1) 0 r (by omega) (by omega) h1
      (fun t _ ht2 => h2 t ht2)

/-- An all-literal pattern accepts exactly where the bytes occur. -/
theorem reMatchAt_map_some (B hay : List Nat) (t : Nat) :
    reMatchAt (B.map some) hay t = true ↔ occursAt B hay t := by
  rw [reMatchAt_iff]
  unfold occursAt
  rw [List.length_map]
  constructor
  · rintro ⟨h1, h2⟩
    refine ⟨h1, fun k hk => ?_⟩
    have := h2 k hk
    have hgd : (B.map some).getD k none = some (B.getD k 0) := by
      rw [List.getD_eq_getElem?_getD, List.getElem?_map,
        List.getElem?_eq_getElem hk, List.getD_eq_getElem?_getD,
        List.getElem?_eq_getElem hk]
      rfl
    rw [hgd] at this
    simp only [matchByte, beq_iff_eq] at this
    omega
  · rintro ⟨h1, h2⟩
    refine ⟨h1, fun k hk => ?_⟩
    have := h2 k hk
    have hgd : (B.map some).getD k none = some (B.getD k 0) := by
      rw [List.getD_eq_getElem?_getD, List.getElem?_map,
        List.getElem?_eq_getElem hk, List.getD_eq_getElem?_getD,
        List.getElem?_eq_getElem hk]
      rfl
    rw [hgd]
    simp only [matchByte, beq_iff_eq]
    omega

/-- A byte string occurs at the start of its own embedding site. -/
theorem occursAt_append (pre B post : List Nat) :
    occursAt B (pre ++ B ++ post) pre.length := by
  constructor
  · simp only [List.length_append]
    omega
  · intro k hk
    rw [List.append_assoc, List.getD_eq_getElem?_getD,
      List.getElem?_append_right (by omega)]
    have hidx : pre.length + k - pre.length = k := by omega
    rw [hidx, List.getElem?_append_left hk, List.getD_eq_getElem?_getD]

/-- Specification-side predicate describing the matching semantics the code
actually implements at one position: mask-false positions require an exact
byte match, mask-true positions accept any byte EXCEPT the newline byte
`0x0a` (the `.` wildcard without `re.DOTALL`). -/
def wildcardNoNewlineMatchAt (lit mask hay : List Nat) (t : Nat) : Prop :=
  t + lit.length ≤ hay.length ∧
    ∀ k < lit.length,
      (mask.getD k 0 = 0 → hay.getD (t + k) 0 = lit.getD k 0) ∧
      (mask.getD k 0 ≠ 0 → hay.getD (t + k) 0 ≠ 10)

instance (lit mask hay : List Nat) (t : Nat) :
    Decidable (wildcardNoNewlineMatchAt lit mask hay t) :=
  inferInstanceAs (Decidable (t + lit.length ≤ hay.length ∧
    ∀ k < lit.length,
      (mask.getD k 0 = 0 → hay.getD (t + k) 0 = lit.getD k 0) ∧
      (mask.getD k 0 ≠ 0 → hay.getD (t + k) 0 ≠ 10)))

/-- One pattern element of the compiled regex, read positionwise. -/
theorem zipWith_pattern_getD (lit mask : List Nat) (hlen : mask.length = lit.length)
    (k : Nat) (hk : k < lit.length) :
    (List.zipWith (fun bit b => if bit == 0 then some b else none) mask lit).getD k none
      = if mask.getD k 0 == 0 then some (lit.getD k 0) else none := by
  have hkm : k < mask.length := by omega
  have hkp : k < (List.zipWith (fun bit b => if bit == 0 then some b else none)
      mask lit).length := by
    rw [List.length_zipWith]
    omega
  rw [List.getD_eq_getElem?_getD, List.getElem?_eq_getElem hkp]
  rw [List.getElem_zipWith]
  rw [List.getD_eq_getElem?_getD, List.getElem?_eq_getElem hkm,
    List.getD_eq_getElem?_getD, List.getElem?_eq_getElem hk]
  rfl

/-- The compiled pattern accepts a position exactly under the
no-newline-wildcard semantics. -/
theorem reMatchAt_zipWith_iff (lit mask hay : List Nat)
    (hlen : mask.length = lit.length) (t : Nat) :
    reMatchAt (List.zipWith (fun bit b => if bit == 0 then some b else none) mask lit)
        hay t = true
      ↔ wildcardNoNewlineMatchAt lit mask hay t := by
  rw [reMatchAt_iff]
  unfold wildcardNoNewlineMatchAt
  have hplen : (List.zipWith (fun bit b => if bit == 0 then some b else none)
      mask lit).length = lit.length := by
    rw [List.length_zipWith]
    omega
  rw [hplen]
  refine and_congr Iff.rfl (forall_congr' fun k => ⟨fun h hk => ?_, fun h hk => ?_⟩)
  · have hgd := zipWith_pattern_getD lit mask hlen k hk
    have hmb := h hk
    rw [hgd] at hmb
    by_cases he : mask.getD k 0 = 0
    · rw [if_pos (by rw [he]; rfl)] at hmb
      simp only [matchByte, beq_iff_eq] at hmb
      exact ⟨fun _ => hmb.symm, fun hne => absurd he hne⟩
    · rw [if_neg (fun hb => he (beq_iff_eq.mp hb))] at hmb
      simp only [matchByte, ne_eq, bne_iff_ne] at hmb
      exact ⟨fun h0 => absurd h0 he, fun _ => hmb⟩
  · have hgd := zipWith_pattern_getD lit mask hlen k hk
    have hcl := h hk
    rw [hgd]
    by_cases he : mask.getD k 0 = 0
    · rw [if_pos (by rw [he]; rfl)]
      simp only [matchByte, beq_iff_eq]
      exact (hcl.1 he).symm
    · rw [if_neg (fun hb => he (beq_iff_eq.mp hb))]
      simp only [matchByte, ne_eq, bne_iff_ne]
      exact hcl.2 he

/-- C3 refuted at a concrete input: take literal `[0]`, mask `[1]` (the single
position is a wildcard) and haystack `[10]` (one newline byte).  Under the
claim's semantics the wildcard matches any byte value, so position 0 matches
(`specWildcardMatchAt` holds there — every non-wildcard byte matches
vacuously), yet the code's search reports no match at all: the compiled `.`
wildcard refuses byte `0x0a`. -/
theorem c3_wildcard_all_bytes_counterexample :
    buildRegex [0] [1] = .ok [(none : PatElem)] ∧
    specWildcardMatchAt [0] [1] [10] 0 ∧
    reSearch [(none : PatElem)] [10] = none := by
  refine ⟨rfl, by decide, by decide⟩

/-- C3 amended: for literal bytes and a mask of equal length, the matcher
builds a pattern whose mask-false positions require an exact byte match and
whose mask-true positions match any byte EXCEPT `0x0a` (newline, 255 of the
256 values — `.` without `re.DOTALL`), and it reports exactly the first
(leftmost) haystack position accepted under those semantics. -/
theorem c3_first_match_semantics (haystack lit mask : List Nat)
    (hlen : mask.length = lit.length) (pat : List PatElem)
    (hpat : buildRegex lit mask = .ok pat) (s : Nat) :
    reSearch pat haystack = some s ↔
      (wildcardNoNewlineMatchAt lit mask haystack s ∧
        ∀ t < s, ¬ wildcardNoNewlineMatchAt lit mask haystack t) := by
  have hok := buildRegex_ok lit mask (by omega)
  rw [hpat] at hok
  have hpe : pat = List.zipWith (fun bit b => if bit == 0 then some b else none)
      mask lit := by
    exact Except.ok.inj hok
  subst hpe
  rw [reSearch_eq_some_iff]
  constructor
  · rintro ⟨h1, h2⟩
    refine ⟨(reMatchAt_zipWith_iff lit mask haystack hlen s).mp h1, fun t ht hw => ?_⟩
    have hf := h2 t ht
    rw [(reMatchAt_zipWith_iff lit mask haystack hlen t).mpr hw] at hf
    exact absurd hf (by simp)
  · rintro ⟨h1, h2⟩
    refine ⟨(reMatchAt_zipWith_iff lit mask haystack hlen s).mpr h1, fun t ht => ?_⟩
    exact Bool.eq_false_iff.mpr
      (fun hb => h2 t ht ((reMatchAt_zipWith_iff lit mask haystack hlen t).mp hb))

/-- Witness for C3 (amended): pattern `[some 1, none, some 3]` from literal
`[1,2,3]` and mask `[0,1,0]` first matches `[9,1,7,3,5]` at position 1. -/
theorem c3_first_match_semantics_witness :
    reSearch [some 1, (none : PatElem), some 3] [9, 1, 7, 3, 5] = some 1 :=
  (c3_first_match_semantics [9, 1, 7, 3, 5] [1, 2, 3] [0, 1, 0] (by decide)
    [some 1, none, some 3] rfl 1).mpr (by decide)

/-- A full-list Python slice read returns the list. -/
theorem pySliceGet_all (l : List Nat) : pySliceGet l 0 (l.length : Int) = l := by
  unfold pySliceGet pyIdx
  rw [if_neg (by omega), if_neg (by omega)]
  simp

/-- C9: round-trip — a literal 40-byte function body `B` with no relocations,
embedded unchanged at offset `O = pre.length` in the haystack and occurring
first there, is reported Found at absolute offset `haystack_base + O` with
size 40 by the relocation-aware matcher under `min_match = 24`. -/
theorem c9_roundtrip (args : Args) (sym : Sym) (strtab : Nat → String)
    (B pre post : List Nat)
    (hmin : args.min_match = 24)
    (hname : ¬ (strtab sym.st_name).length = 0)
    (hfunc : sym.st_info_type = "STT_FUNC")
    (hptr : sym.st_value = 0) (hsz : sym.st_size = 40)
    (hB : B.length = 40)
    (hfirst : ∀ t < pre.length, ¬ occursAt B (pre ++ B ++ post) t) :
    match_symbol_reloc args (pre ++ B ++ post) sym B strtab (RelocationMap.init [])
      = .ok (.found (args.haystack_base + pre.length) 40) := by
  have hsv : pySliceGet B sym.st_value (sym.st_value + sym.st_size) = B := by
    have h40 : sym.st_value + sym.st_size = (B.length : Int) := by
      rw [hptr, hsz, hB]
      rfl
    rw [h40, hptr, pySliceGet_all]
  have hmask : buildMask sym.st_size sym.st_value
      ((RelocationMap.init []).slice_range sym.st_value sym.st_size)
      = List.replicate 40 0 := by
    rw [hptr, hsz]
    rfl
  have hreg : buildRegex B (List.replicate 40 0) = .ok (B.map some) := by
    rw [buildRegex_ok B (List.replicate 40 0) (by simp [hB])]
    have h40 : List.replicate 40 (0 : Nat) = List.replicate B.length 0 := by
      rw [hB]
    rw [h40, zipWith_replicate_zero]
  have hsearch : reSearch (B.map some) (pre ++ B ++ post) = some pre.length := by
    rw [reSearch_eq_some_iff]
    refine ⟨(reMatchAt_map_some B _ pre.length).mpr (occursAt_append pre B post),
      fun t ht => ?_⟩
    exact Bool.eq_false_iff.mpr
      (fun h => hfirst t ht ((reMatchAt_map_some B _ t).mp h))
  simp only [match_symbol_reloc]
  rw [if_neg hname, if_neg (by simp [hfunc]), if_neg (by rw [hsz, hmin]; omega),
    if_neg (by rw [hsv, hsz, hB]; omega)]
  rw [hsv, hmask, hreg]
  simp only []
  rw [hsearch]
  rw [hsz]

/-- Witness for C9: body of 40 sevens embedded at offset 1 after a
distinguishing byte 99; reported Found at `0x80000000 + 1` with size 40. -/
theorem c9_roundtrip_witness :
    match_symbol_reloc ⟨false, 24, 32, 0x80000000⟩
        ([99] ++ List.replicate 40 7 ++ [5]) ⟨0, "STT_FUNC", 0, 40⟩
        (List.replicate 40 7) (fun _ => "f") (RelocationMap.init [])
      = .ok (.found (0x80000000 + 1) 40) :=
  c9_roundtrip ⟨false, 24, 32, 0x80000000⟩ ⟨0, "STT_FUNC", 0, 40⟩ (fun _ => "f")
    (List.replicate 40 7) [99] [5] rfl (by decide) rfl rfl rfl (by decide) (by decide)

/-- Witness for C5 at a concrete one-entry table: the single entry (global
index 0 and also last index) at offset 5 is in `[5, 6)` yet the query returns
empty, and a negative size also returns empty. -/
theorem c5_slice_range_boundary_gap_witness :
    (RelocationMap.init [⟨5, 7⟩]).slice_range 5 1 = [] ∧
    (RelocationMap.init [⟨5, 7⟩]).slice_range 0 (-3) = [] := by
  have hs : (RelocationMap.init [⟨5, 7⟩])._keys.Sorted (· ≤ ·) := by
    simp [RelocationMap.init]
  exact ⟨(c5_slice_range_boundary_gap (RelocationMap.init [⟨5, 7⟩]) 5 1 hs).1
      ⟨by decide, by decide, by decide⟩,
    (c5_slice_range_boundary_gap (RelocationMap.init [⟨5, 7⟩]) 0 (-3) hs).2.2 (by decide)⟩

end WiiSym
